import Mathlib

set_option maxRecDepth 100000

/-!
Verification of the matching core of `apple_tts.py` (class `AppleTTS`).

Strings are embedded as `List Char`.  Python `str.lower`/`str.strip` are
modelled on the ASCII fragment; Python floats are modelled by exact
rationals (`ℚ`).  The similarity call
`difflib.SequenceMatcher(None, text, sample_text).ratio()` is embedded by
the documented semantics of the standard library implementation with
`isjunk = None` and the default `autojunk = True`:

* the "b2j" table drops the *popular* characters of `b` (characters whose
  count exceeds `len(b) / 100 + 1`) whenever `len(b) >= 200`;
* `find_longest_match` returns, among the common contiguous blocks that
  avoid popular characters of `b`, a longest one, breaking ties by the
  least start in `a` and then the least start in `b` (this is what the
  inner dynamic-programming loop computes: updates happen only on a
  strictly greater length, scanning end positions in lexicographic
  order); afterwards the block is greedily extended backward, then
  forward, over *equal* characters (the junk-based extension guards use
  `self.bjunk`, which is empty because `isjunk` is `None`, so popular
  characters do not block the extension);
* `get_matching_blocks` recurses on the unmatched left and right
  remainders, and `ratio` is `2 * M / T` with `M` the total matched
  length and `T` the sum of the lengths (`1.0` when `T = 0`).
-/

/-- Strings of the Python program, embedded as lists of characters. -/
abbrev Str := List Char

/-- Python whitespace (ASCII fragment): space, tab, LF, VT, FF, CR. -/
def isSpaceCh (c : Char) : Bool :=
  c.toNat = 32 || c.toNat = 9 || c.toNat = 10 || c.toNat = 11 || c.toNat = 12 || c.toNat = 13

/-- Python `str.lower` on a single character (ASCII fragment). -/
def lowerCh (c : Char) : Char :=
  if 65 ≤ c.toNat ∧ c.toNat ≤ 90 then Char.ofNat (c.toNat + 32) else c

/-- Python `str.lower`. -/
def lowerS (s : Str) : Str := s.map lowerCh

/-- Python `str.strip`: remove leading and trailing whitespace. -/
def stripS (s : Str) : Str :=
  (((s.dropWhile isSpaceCh).reverse).dropWhile isSpaceCh).reverse

/-- Helper for `splitWs`; the accumulator holds the current token reversed. -/
def splitWsAux : Str → Str → List Str
  | [], acc => if acc = [] then [] else [acc.reverse]
  | c :: rest, acc =>
    if isSpaceCh c then
      if acc = [] then splitWsAux rest [] else acc.reverse :: splitWsAux rest []
    else splitWsAux rest (c :: acc)

/-- Python `str.split()` with no argument: split on whitespace runs, dropping
empty tokens. -/
def splitWs (s : Str) : List Str := splitWsAux s []

/-- First index at which `sep` occurs in `s` (Python substring search). -/
def findSep (sep s : Str) : Option Nat :=
  (List.range (s.length + 1)).find? fun i => (s.drop i).take sep.length == sep

/-- Helper for `splitSep`, structurally recursive on fuel. -/
def splitSepAux (sep : Str) : Nat → Str → List Str
  | 0, s => [s]
  | fuel + 1, s =>
    match findSep sep s with
    | none => [s]
    | some i => s.take i :: splitSepAux sep fuel (s.drop (i + sep.length))

/-- Python `str.split(sep)` with a non-empty separator: split at the leftmost
occurrences of `sep`; empty pieces are kept, so the result is never empty. -/
def splitSep (sep s : Str) : List Str := splitSepAux sep (s.length + 1) s

/-- Python `q in s` on strings: `q` occurs in `s` as a contiguous substring. -/
def containsSub (q s : Str) : Bool :=
  (List.range (s.length + 1)).any fun i => (s.drop i).take q.length == q

/-- Lexicographic comparison of strings by code point (Python `<=` on `str`),
used only to model `sorted`. -/
def lexLe : Str → Str → Bool
  | [], _ => true
  | _ :: _, [] => false
  | c :: cs, d :: ds => if c = d then lexLe cs ds else decide (c.toNat < d.toNat)

/-- Insertion step for `sortStr`. -/
def insertLex (x : Str) : List Str → List Str
  | [] => [x]
  | y :: ys => if lexLe x y then x :: y :: ys else y :: insertLex x ys

/-- Python `sorted` on a list of strings (insertion sort). -/
def sortStr : List Str → List Str
  | [] => []
  | x :: xs => insertLex x (sortStr xs)

/-- One training record, as loaded from a metadata line. -/
structure Sample where
  utterance_name : Str
  words : Str
  script_title : Str
  sentence_estimated_duration : ℚ
  phone_sequence : Str
  transcription : Str
deriving DecidableEq

/-- Python runtime error raised by an unguarded arithmetic operation. -/
inductive PyErr where
  | zeroDivisionError
deriving DecidableEq

/-- Python true division, which raises `ZeroDivisionError` on a zero
denominator instead of returning a value. -/
def pyDivQ (x y : ℚ) : Except PyErr ℚ :=
  if y = 0 then Except.error PyErr.zeroDivisionError else Except.ok (x / y)

/-- A common contiguous block: start in `a`, start in `b`, length. -/
structure Blk where
  i : Nat
  j : Nat
  k : Nat
deriving DecidableEq

/-- Length of the matching run at the heads of the two strings, restricted to
runs whose `b`-characters avoid the junk set `P`. -/
def runLen (P : Char → Bool) : Str → Str → Nat
  | a :: as, b :: bs => if a == b && !(P b) then runLen P as bs + 1 else 0
  | _, _ => 0

/-- All start pairs `(i, j)`, in the scan order of the dynamic program of
`SequenceMatcher.find_longest_match` (by `i`, then by `j`). -/
def cands (la lb : Nat) : List (Nat × Nat) :=
  (List.range la).flatMap fun i => (List.range lb).map fun j => (i, j)

/-- Fold step keeping the first strictly longer block. -/
def bbStep (P : Char → Bool) (a b : Str) (best : Blk) (p : Nat × Nat) : Blk :=
  if best.k < runLen P (a.drop p.1) (b.drop p.2) then
    ⟨p.1, p.2, runLen P (a.drop p.1) (b.drop p.2)⟩
  else best

/-- The longest common contiguous block avoiding `P` in `b`, ties broken by
least start in `a`, then least start in `b`; `⟨0, 0, 0⟩` if there is none.
This is the block found by the dynamic program of `find_longest_match`. -/
def bestBlock (P : Char → Bool) (a b : Str) : Blk :=
  (cands a.length b.length).foldl (bbStep P a b) ⟨0, 0, 0⟩

/-- The always-false junk predicate (no character is junk). -/
def pFalse : Char → Bool := fun _ => false

/-- The two extension loops of `find_longest_match` with an empty `bjunk`
set (the case `isjunk = None`): extend the block backward, then forward,
over equal characters. -/
def extendBlk (a b : Str) (m : Blk) : Blk :=
  ⟨m.i - runLen pFalse ((a.take m.i).reverse) ((b.take m.j).reverse),
    m.j - runLen pFalse ((a.take m.i).reverse) ((b.take m.j).reverse),
    runLen pFalse ((a.take m.i).reverse) ((b.take m.j).reverse) + m.k
      + runLen pFalse (a.drop (m.i + m.k)) (b.drop (m.j + m.k))⟩

/-- `find_longest_match` with `isjunk = None`: dynamic program plus the two
extension loops. -/
def bestBlockExt (P : Char → Bool) (a b : Str) : Blk := extendBlk a b (bestBlock P a b)

/-- Python `autojunk`: with `len(b) >= 200`, characters occurring more than
`len(b) / 100 + 1` times in `b` are dropped from the `b2j` table. -/
def isPopular (b : Str) (c : Char) : Bool :=
  decide (200 ≤ b.length) && decide (b.length / 100 + 1 < b.count c)

/-- Total matched length of `get_matching_blocks`: take the longest match,
recurse on the left and right remainders.  Structurally recursive on fuel. -/
def mtAux (P : Char → Bool) : Nat → Str → Str → Nat
  | 0, _, _ => 0
  | fuel + 1, a, b =>
    if (bestBlockExt P a b).k = 0 then 0
    else (bestBlockExt P a b).k
      + mtAux P fuel (a.take (bestBlockExt P a b).i) (b.take (bestBlockExt P a b).j)
      + mtAux P fuel (a.drop ((bestBlockExt P a b).i + (bestBlockExt P a b).k))
          (b.drop ((bestBlockExt P a b).j + (bestBlockExt P a b).k))

/-- Total matched length `M` of `SequenceMatcher(None, a, b)` (with the
default `autojunk = True`, so the popular characters of `b` are junk). -/
def pyMatchTotal (a b : Str) : Nat := mtAux (isPopular b) (a.length + b.length + 1) a b

/-- `SequenceMatcher(None, a, b).ratio()`: `2 M / T`, and `1` when `T = 0`. -/
def simRatioQ (a b : Str) : ℚ :=
  if a.length + b.length = 0 then 1
  else 2 * (pyMatchTotal a b : ℚ) / ((a.length : ℚ) + (b.length : ℚ))

/-- Modelled from the claim: total matched length obtained by recursively
taking the longest common contiguous block (no junk of any kind) and
recursing on the unmatched left and right remainders. -/
def roAux : Nat → Str → Str → Nat
  | 0, _, _ => 0
  | fuel + 1, a, b =>
    if (bestBlock pFalse a b).k = 0 then 0
    else (bestBlock pFalse a b).k
      + roAux fuel (a.take (bestBlock pFalse a b).i) (b.take (bestBlock pFalse a b).j)
      + roAux fuel (a.drop ((bestBlock pFalse a b).i + (bestBlock pFalse a b).k))
          (b.drop ((bestBlock pFalse a b).j + (bestBlock pFalse a b).k))

/-- Modelled from the claim: the `M` of the pure Ratcliff-Obershelp
description. -/
def roMatchTotal (a b : Str) : Nat := roAux (a.length + b.length + 1) a b

/-- Modelled from the claim: the pure `2 M / T` similarity value. -/
def roRatioQ (a b : Str) : ℚ :=
  if a.length + b.length = 0 then 1
  else 2 * (roMatchTotal a b : ℚ) / ((a.length : ℚ) + (b.length : ℚ))

/-- Python `set(x.split())`. -/
def tokenSet (s : Str) : Finset Str := (splitWs s).toFinset

/-- The word-overlap factor of `find_closest_match`:
`len(text_words & sample_words) / len(text_words) if text_words else 0`. -/
def wordOverlap (tw sw : Finset Str) : ℚ :=
  if tw = ∅ then 0 else ((tw ∩ sw).card : ℚ) / (tw.card : ℚ)

/-- The score of one candidate in `find_closest_match`, for the already
normalized query `nq` and the lower-cased candidate text `st`:
similarity ratio plus `0.3` times the word overlap. -/
def score (nq st : Str) : ℚ :=
  simRatioQ nq st + wordOverlap (tokenSet nq) (tokenSet st) * (3 / 10)

/-- The loop of `find_closest_match`: exact-match short circuit, otherwise
track the best score (strict improvement only); after the loop return the
best record only when its score exceeds `0.3`. -/
def fcmGo (nq : Str) : List Sample → Option Sample → ℚ → Option Sample
  | [], best, bestSc => if 3 / 10 < bestSc then best else none
  | s :: rest, best, bestSc =>
    if lowerS s.words = nq then some s
    else
      if bestSc < score nq (lowerS s.words) then
        fcmGo nq rest (some s) (score nq (lowerS s.words))
      else fcmGo nq rest best bestSc

/-- `AppleTTS.find_closest_match`: the query is lower-cased and stripped,
each candidate text is lower-cased (only), then the loop runs. -/
def find_closest_match (samples : List Sample) (text : Str) : Option Sample :=
  fcmGo (stripS (lowerS text)) samples none 0

/-- The scored pass alone (no exact-match short circuit), returning the best
record so far and the best score; used to state properties of the loop. -/
def scoredGo (nq : Str) : List Sample → Option Sample → ℚ → Option Sample × ℚ
  | [], best, bestSc => (best, bestSc)
  | s :: rest, best, bestSc =>
    if bestSc < score nq (lowerS s.words) then
      scoredGo nq rest (some s) (score nq (lowerS s.words))
    else scoredGo nq rest best bestSc

/-- The maximal candidate score of a corpus for a normalized query. -/
def bestScore (samples : List Sample) (nq : Str) : ℚ :=
  samples.foldl (fun m s => max m (score nq (lowerS s.words))) 0

/-- Modelled from the claim of identical normalization: the variant of the
loop whose candidate texts are lower-cased *and stripped*. -/
def fcmGoSpec (nq : Str) : List Sample → Option Sample → ℚ → Option Sample
  | [], best, bestSc => if 3 / 10 < bestSc then best else none
  | s :: rest, best, bestSc =>
    if stripS (lowerS s.words) = nq then some s
    else
      if bestSc < score nq (stripS (lowerS s.words)) then
        fcmGoSpec nq rest (some s) (score nq (stripS (lowerS s.words)))
      else fcmGoSpec nq rest best bestSc

/-- Modelled from the claim: `find_closest_match` as it would behave if the
candidate texts were normalized exactly like the query. -/
def find_closest_match_specNorm (samples : List Sample) (text : Str) : Option Sample :=
  fcmGoSpec (stripS (lowerS text)) samples none 0

/-- `AppleTTS.find_sample_by_id`: first record with the exact id. -/
def find_sample_by_id (samples : List Sample) (name : Str) : Option Sample :=
  samples.find? fun s => s.utterance_name == name

/-- The loop of `AppleTTS.search_samples`. -/
def searchGo (q : Str) : List Sample → List Sample
  | [] => []
  | s :: rest =>
    if containsSub q (lowerS s.words) then s :: searchGo q rest else searchGo q rest

/-- `AppleTTS.search_samples`: lower-case the query, keep the records whose
lower-cased text contains it. -/
def search_samples (samples : List Sample) (query : Str) : List Sample :=
  searchGo (lowerS query) samples

/-- `AppleTTS.filter_by_category`: exact equality on the category field. -/
def filter_by_category (samples : List Sample) (category : Str) : List Sample :=
  samples.filter fun s => s.script_title == category

/-- Python `round(x, 2)`, modelled in exact arithmetic (round half away from
the floor at the second decimal; no claim depends on the rounding mode). -/
def round2 (q : ℚ) : ℚ := (round (q * 100) : ℤ) / 100

/-- The result record of `AppleTTS.get_stats`. -/
structure Stats where
  total_samples : Nat
  categories : Nat
  category_names : List Str
  avg_duration : ℚ
  total_duration : ℚ
deriving DecidableEq

/-- Sum of the estimated durations. -/
def sumDur (samples : List Sample) : ℚ :=
  samples.foldl (fun acc s => acc + s.sentence_estimated_duration) 0

/-- `AppleTTS.get_stats`.  The source computes
`sum(...) / len(self.samples)` with no emptiness guard, so on an empty
corpus the division raises `ZeroDivisionError`; the embedding surfaces that
as the error value of `pyDivQ`. -/
def get_stats (samples : List Sample) : Except PyErr Stats :=
  let cats := (samples.map fun s => s.script_title).dedup
  match pyDivQ (sumDur samples) (samples.length : ℚ) with
  | Except.error e => Except.error e
  | Except.ok avg =>
    Except.ok
      { total_samples := samples.length
        categories := cats.length
        category_names := sortStr cats
        avg_duration := round2 avg
        total_duration := round2 (sumDur samples) }

/-- The separator of `analyze_phonemes`: the string `" # "`. -/
def hashSep : Str := [' ', '#', ' ']

/-- The result record of `AppleTTS.analyze_phonemes`. -/
structure PhonemeAnalysis where
  text : Str
  phoneme_count : Nat
  phonemes : List Str
  full_sequence : Str
  transcription : Str
deriving DecidableEq

/-- `AppleTTS.analyze_phonemes`: look the record up by id, split its phoneme
sequence on `" # "`. -/
def analyze_phonemes (samples : List Sample) (name : Str) : Option PhonemeAnalysis :=
  (find_sample_by_id samples name).map fun s =>
    let ph := splitSep hashSep s.phone_sequence
    { text := s.words
      phoneme_count := ph.length
      phonemes := ph
      full_sequence := s.phone_sequence
      transcription := s.transcription }

/-- The score a record obtains in the loop, for a normalized query `nq`. -/
def scoreOf (nq : Str) (s : Sample) : ℚ := score nq (lowerS s.words)

/-- Re-lower the text of a record (used to state candidate case-insensitivity). -/
def relowerWords (s : Sample) : Sample := { s with words := lowerS s.words }

/-- A record with the given id and text and neutral remaining fields. -/
def mkSample (id w : Str) : Sample :=
  { utterance_name := id
    words := w
    script_title := []
    sentence_estimated_duration := 0
    phone_sequence := []
    transcription := [] }

/-- Record whose text carries a trailing blank. -/
def sampH1 : Sample := mkSample ("A".toList) ("hello ".toList)

/-- Record whose text is exactly the query. -/
def sampH2 : Sample := mkSample ("B".toList) ("hello".toList)

/-- Record with empty text. -/
def sampE : Sample := mkSample ("E".toList) []

/-- Filler record that matches nothing interesting. -/
def sampW1 : Sample := mkSample ("w1".toList) ("zzz".toList)

/-- Record whose lower-cased text is `abc`. -/
def sampW2 : Sample := mkSample ("w2".toList) ("Abc".toList)

/-- Record that is far from the query used with it. -/
def samp4 : Sample := mkSample ("s4".toList) ("xyz123".toList)

/-- First of two records with identical text. -/
def sampT1 : Sample := mkSample ("t1".toList) ("tie x".toList)

/-- Second of two records with identical text. -/
def sampT2 : Sample := mkSample ("t2".toList) ("tie x".toList)

/-- Record with an empty phoneme sequence. -/
def sampP : Sample := mkSample ("u1".toList) ("hi".toList)

/-- Record used for the search witness. -/
def sampZ : Sample := mkSample ("z".toList) ("abc".toList)

/-- The analysis produced for `sampP`. -/
def anaP : PhonemeAnalysis :=
  { text := "hi".toList
    phoneme_count := 1
    phonemes := [[]]
    full_sequence := []
    transcription := [] }

/-- The query of the autojunk counterexample (already in normalized form). -/
def cexQ : Str := ['b']

/-- The candidate text of the autojunk counterexample: 200 characters, in
which both `d` (196 occurrences) and `b` (4 occurrences) are popular. -/
def cexS : Str := List.replicate 196 'd' ++ List.replicate 4 'b'

theorem char_toNat_ofNat_valid (n : Nat) (h : n.isValidChar) : (Char.ofNat n).toNat = n := by
  unfold Char.ofNat
  rw [dif_pos h]
  rfl

theorem isSpaceCh_lowerCh (c : Char) : isSpaceCh (lowerCh c) = isSpaceCh c := by
  unfold lowerCh
  split
  · rename_i h
    have hv : (c.toNat + 32).isValidChar := Or.inl (by omega)
    unfold isSpaceCh
    rw [char_toNat_ofNat_valid _ hv]
    have h1 : (decide (c.toNat + 32 = 32) || decide (c.toNat + 32 = 9) || decide (c.toNat + 32 = 10)
        || decide (c.toNat + 32 = 11) || decide (c.toNat + 32 = 12) || decide (c.toNat + 32 = 13)) = false := by
      simp only [Bool.or_eq_false_iff, decide_eq_false_iff_not]
      omega
    have h2 : (decide (c.toNat = 32) || decide (c.toNat = 9) || decide (c.toNat = 10)
        || decide (c.toNat = 11) || decide (c.toNat = 12) || decide (c.toNat = 13)) = false := by
      simp only [Bool.or_eq_false_iff, decide_eq_false_iff_not]
      omega
    rw [h1, h2]
  · rfl

theorem lowerCh_lowerCh (c : Char) : lowerCh (lowerCh c) = lowerCh c := by
  by_cases h : 65 ≤ c.toNat ∧ c.toNat ≤ 90
  · have hv : (c.toNat + 32).isValidChar := Or.inl (by omega)
    have h2 : lowerCh c = Char.ofNat (c.toNat + 32) := by
      unfold lowerCh
      rw [if_pos h]
    rw [h2]
    unfold lowerCh
    rw [char_toNat_ofNat_valid _ hv]
    rw [if_neg (by omega)]
  · have h2 : lowerCh c = c := by
      unfold lowerCh
      rw [if_neg h]
    rw [h2, h2]

theorem lowerS_lowerS (s : Str) : lowerS (lowerS s) = lowerS s := by
  unfold lowerS
  rw [List.map_map]
  exact List.map_congr_left fun a _ => lowerCh_lowerCh a

theorem dropWhile_lowerS (l : Str) :
    (l.map lowerCh).dropWhile isSpaceCh = (l.dropWhile isSpaceCh).map lowerCh := by
  rw [List.dropWhile_map]
  have h : isSpaceCh ∘ lowerCh = isSpaceCh := funext isSpaceCh_lowerCh
  rw [h]

theorem lowerS_stripS (s : Str) : lowerS (stripS s) = stripS (lowerS s) := by
  unfold lowerS stripS
  rw [dropWhile_lowerS s]
  rw [← List.map_reverse]
  rw [dropWhile_lowerS]
  rw [← List.map_reverse]

theorem stripS_rdrop (t : Str) :
    stripS t = List.rdropWhile isSpaceCh (t.dropWhile isSpaceCh) := rfl

theorem stripS_stripS (s : Str) : stripS (stripS s) = stripS s := by
  rw [stripS_rdrop (stripS s), stripS_rdrop s]
  have h1 : (List.rdropWhile isSpaceCh (s.dropWhile isSpaceCh)).dropWhile isSpaceCh
      = List.rdropWhile isSpaceCh (s.dropWhile isSpaceCh) := by
    rw [List.dropWhile_eq_self_iff]
    intro hl
    have hpre := List.rdropWhile_prefix isSpaceCh (s.dropWhile isSpaceCh)
    have hlen : 0 < (s.dropWhile isSpaceCh).length := lt_of_lt_of_le hl hpre.length_le
    have hget : (List.rdropWhile isSpaceCh (s.dropWhile isSpaceCh)).get ⟨0, hl⟩
        = (s.dropWhile isSpaceCh).get ⟨0, hlen⟩ := by
      simp only [List.get_eq_getElem]
      exact hpre.getElem hl
    rw [hget]
    exact List.dropWhile_get_zero_not isSpaceCh s hlen
  rw [h1, List.rdropWhile_idempotent]

/-- Claim C8: the source of `get_stats` computes the average duration as
`sum(...) / len(self.samples)` with no emptiness guard, so on the empty
corpus the division by zero is reached and raises `ZeroDivisionError`
instead of the explicitly guarded `EmptyCorpusError`-style failure the
specification requires. -/
theorem get_stats_empty_division : get_stats [] = Except.error PyErr.zeroDivisionError := by
  rfl

theorem one_le_length_splitSepAux (sep : Str) (fuel : Nat) (s : Str) :
    1 ≤ (splitSepAux sep fuel s).length := by
  cases fuel with
  | zero => simp [splitSepAux]
  | succ n =>
    unfold splitSepAux
    cases findSep sep s with
    | none => simp
    | some i => simp

/-- Claim C10: for every record found by id, `analyze_phonemes` reports a
phoneme count of at least one (splitting on the `" # "` delimiter always
yields at least one token), and a record whose phoneme sequence is the
empty string is reported with count `1` and a single empty-string phoneme,
never with count `0`. -/
theorem analyze_phonemes_count_pos (samples : List Sample) (name : Str) (r : PhonemeAnalysis)
    (h : analyze_phonemes samples name = some r) :
    1 ≤ r.phoneme_count ∧ r.phoneme_count = r.phonemes.length ∧
      (r.full_sequence = [] → r.phoneme_count = 1 ∧ r.phonemes = [[]]) := by
  unfold analyze_phonemes at h
  cases hf : find_sample_by_id samples name with
  | none => rw [hf] at h; simp at h
  | some s =>
    rw [hf] at h
    simp only [Option.map_some'] at h
    have hr := (Option.some.injEq _ _).mp h
    subst hr
    refine ⟨one_le_length_splitSepAux _ _ _, rfl, fun hseq => ?_⟩
    have hseq2 : s.phone_sequence = [] := hseq
    rw [hseq2]
    exact ⟨rfl, rfl⟩

theorem analyze_phonemes_count_pos_witness :
    analyze_phonemes [sampP] ("u1".toList) = some anaP ∧
      (1 ≤ anaP.phoneme_count ∧ anaP.phoneme_count = anaP.phonemes.length ∧
        (anaP.full_sequence = [] → anaP.phoneme_count = 1 ∧ anaP.phonemes = [[]])) :=
  ⟨by decide, analyze_phonemes_count_pos [sampP] ("u1".toList) anaP (by decide)⟩

theorem containsSub_iff (q s : Str) : containsSub q s = true ↔ ∃ t u, s = t ++ q ++ u := by
  unfold containsSub
  rw [List.any_eq_true]
  constructor
  · rintro ⟨i, hi, hp⟩
    rw [beq_iff_eq] at hp
    refine ⟨s.take i, (s.drop i).drop q.length, ?_⟩
    conv_lhs => rw [← List.take_append_drop i s]
    rw [List.append_assoc]
    congr 1
    conv_lhs => rw [← List.take_append_drop q.length (s.drop i)]
    rw [hp]
  · rintro ⟨t, u, rfl⟩
    refine ⟨t.length, ?_, ?_⟩
    · rw [List.mem_range]
      simp only [List.length_append]
      omega
    · rw [beq_iff_eq]
      have hd : (t ++ q ++ u).drop t.length = q ++ u := by
        rw [List.append_assoc]
        exact List.drop_left t (q ++ u)
      rw [hd, List.take_left]

theorem containsSub_nil_left (s : Str) : containsSub [] s = true := by
  unfold containsSub
  rw [List.any_eq_true]
  exact ⟨0, by simp [List.mem_range], by simp⟩

theorem searchGo_eq_filter (q : Str) (l : List Sample) :
    searchGo q l = l.filter fun s => containsSub q (lowerS s.words) := by
  induction l with
  | nil => rfl
  | cons s rest ih =>
    unfold searchGo
    rw [List.filter_cons]
    by_cases h : containsSub q (lowerS s.words) = true
    · rw [if_pos h, if_pos h, ih]
    · rw [if_neg h, if_neg h, ih]

/-- Claim C9: `search_samples` returns exactly the records whose lower-cased
text contains the lower-cased query as a contiguous substring, in corpus
order (the loop is the corpus-order filter), and the empty query returns
every record. -/
theorem search_samples_spec (samples : List Sample) (q : Str) :
    search_samples samples q = samples.filter (fun s => containsSub (lowerS q) (lowerS s.words)) ∧
    (∀ s : Sample, containsSub (lowerS q) (lowerS s.words) = true ↔
      ∃ t u, lowerS s.words = t ++ lowerS q ++ u) ∧
    search_samples samples [] = samples := by
  refine ⟨searchGo_eq_filter _ _, fun s => containsSub_iff _ _, ?_⟩
  show searchGo (lowerS []) samples = samples
  have hnil : lowerS [] = ([] : Str) := rfl
  rw [hnil, searchGo_eq_filter]
  simp [containsSub_nil_left]

theorem search_samples_spec_witness : search_samples [sampZ] [] = [sampZ] :=
  (search_samples_spec [sampZ] ("x".toList)).2.2

/-- Claim C3: the word-overlap bonus added to the score equals `0.3` times
the number of shared tokens divided by the number of query tokens (token
sets obtained by whitespace-splitting the normalized strings), and the
bonus is zero when the query token set is empty. -/
theorem score_word_overlap_bonus (nq st : Str) :
    score nq st = simRatioQ nq st +
      3 / 10 * ((tokenSet nq ∩ tokenSet st).card : ℚ) / ((tokenSet nq).card : ℚ) ∧
    (tokenSet nq = ∅ → score nq st = simRatioQ nq st) := by
  constructor
  · unfold score wordOverlap
    by_cases h : tokenSet nq = ∅
    · rw [if_pos h, h]
      simp
    · rw [if_neg h]
      ring
  · intro h
    unfold score wordOverlap
    rw [if_pos h]
    ring

theorem score_word_overlap_bonus_witness :
    tokenSet [] = ∅ ∧ score [] ("a".toList) = simRatioQ [] ("a".toList) :=
  ⟨by decide, (score_word_overlap_bonus [] ("a".toList)).2 (by decide)⟩

theorem fcmGo_first_exact (nq : Str) (l2 : List Sample) (s0 : Sample)
    (h2 : lowerS s0.words = nq) :
    ∀ (l1 : List Sample), (∀ s ∈ l1, lowerS s.words ≠ nq) →
      ∀ (best : Option Sample) (sc : ℚ), fcmGo nq (l1 ++ s0 :: l2) best sc = some s0 := by
  intro l1
  induction l1 with
  | nil =>
    intro _ best sc
    simp only [List.nil_append]
    unfold fcmGo
    rw [if_pos h2]
  | cons t ts ih =>
    intro h1 best sc
    have ht : lowerS t.words ≠ nq := h1 t (List.mem_cons_self t ts)
    simp only [List.cons_append]
    unfold fcmGo
    rw [if_neg ht]
    have hts : ∀ s ∈ ts, lowerS s.words ≠ nq := fun s hs => h1 s (List.mem_cons_of_mem _ hs)
    by_cases hsc : sc < score nq (lowerS t.words)
    · rw [if_pos hsc]
      exact ih hts _ _
    · rw [if_neg hsc]
      exact ih hts _ _

/-- Claim C1 (amended): the exact short-circuit compares the lower-cased
*unstripped* candidate text with the lower-cased, stripped query.  If some
record has `lower(words)` equal to the normalized query, the first such
record in corpus order is returned, without regard to the scores of any
other record. -/
theorem find_closest_match_first_exact (l1 l2 : List Sample) (s0 : Sample) (q : Str)
    (h1 : ∀ s ∈ l1, lowerS s.words ≠ stripS (lowerS q))
    (h2 : lowerS s0.words = stripS (lowerS q)) :
    find_closest_match (l1 ++ s0 :: l2) q = some s0 :=
  fcmGo_first_exact (stripS (lowerS q)) l2 s0 h2 l1 h1 none 0

theorem find_closest_match_first_exact_witness :
    (∀ s ∈ [sampW1], lowerS s.words ≠ stripS (lowerS (" ABC ".toList))) ∧
    lowerS sampW2.words = stripS (lowerS (" ABC ".toList)) ∧
    find_closest_match [sampW1, sampW2] (" ABC ".toList) = some sampW2 :=
  ⟨by decide, by decide,
    find_closest_match_first_exact [sampW1] [] sampW2 (" ABC ".toList) (by decide) (by decide)⟩

theorem fcmGo_nil (nq : Str) (best : Option Sample) (sc : ℚ) :
    fcmGo nq [] best sc = if 3 / 10 < sc then best else none := rfl

theorem fcmGo_cons_exact (nq : Str) (s : Sample) (rest : List Sample) (best : Option Sample)
    (sc : ℚ) (h : lowerS s.words = nq) : fcmGo nq (s :: rest) best sc = some s := by
  unfold fcmGo
  rw [if_pos h]

theorem fcmGo_cons_update (nq : Str) (s : Sample) (rest : List Sample) (best : Option Sample)
    (sc : ℚ) (h1 : lowerS s.words ≠ nq) (h2 : sc < score nq (lowerS s.words)) :
    fcmGo nq (s :: rest) best sc = fcmGo nq rest (some s) (score nq (lowerS s.words)) := by
  conv_lhs => unfold fcmGo
  rw [if_neg h1, if_pos h2]

theorem fcmGo_cons_keep (nq : Str) (s : Sample) (rest : List Sample) (best : Option Sample)
    (sc : ℚ) (h1 : lowerS s.words ≠ nq) (h2 : ¬sc < score nq (lowerS s.words)) :
    fcmGo nq (s :: rest) best sc = fcmGo nq rest best sc := by
  conv_lhs => unfold fcmGo
  rw [if_neg h1, if_neg h2]

theorem score_eval (nq st : Str) (m cq ci la lb : Nat)
    (hm : pyMatchTotal nq st = m)
    (hcq : (tokenSet nq).card = cq)
    (hci : (tokenSet nq ∩ tokenSet st).card = ci)
    (hla : nq.length = la) (hlb : st.length = lb)
    (hl : ¬la + lb = 0) :
    score nq st = 2 * (m : ℚ) / ((la : ℚ) + (lb : ℚ))
      + (if cq = 0 then 0 else (ci : ℚ) / (cq : ℚ)) * (3 / 10) := by
  unfold score simRatioQ wordOverlap
  rw [hm, hla, hlb, if_neg hl]
  by_cases h : tokenSet nq = ∅
  · rw [if_pos h, if_pos (by rw [← hcq, h]; exact Finset.card_empty)]
  · rw [if_neg h, if_neg fun h0 => h (Finset.card_eq_zero.mp (hcq.trans h0)), hcq, hci]

theorem find_H_eval : find_closest_match [sampH1, sampH2] ("hello".toList) = some sampH2 := by
  have hnq : stripS (lowerS ("hello".toList)) = "hello".toList := by decide
  unfold find_closest_match
  rw [hnq]
  have h1 : lowerS sampH1.words = "hello ".toList := by decide
  have hne : lowerS sampH1.words ≠ "hello".toList := by decide
  have hs : score ("hello".toList) (lowerS sampH1.words) = 133 / 110 := by
    rw [h1, score_eval _ _ 5 1 1 5 6 (by decide) (by decide) (by decide) (by decide) (by decide)
      (by decide)]
    norm_num
  rw [fcmGo_cons_update _ _ _ _ _ hne (by rw [hs]; norm_num)]
  rw [fcmGo_cons_exact _ _ _ _ _ (by decide)]

/-- Claim C1 counterexample: in corpus `[sampH1, sampH2]` with texts
`"hello "` and `"hello"`, the first record whose lower-cased *stripped*
text equals the normalized query `"hello"` is `sampH1`, yet
`find_closest_match` returns `sampH2`: the short-circuit does not strip
candidate texts, so it skips `sampH1`. -/
theorem find_closest_match_not_first_stripped :
    stripS (lowerS sampH1.words) = stripS (lowerS ("hello".toList)) ∧
    find_closest_match [sampH1, sampH2] ("hello".toList) = some sampH2 ∧
    sampH2 ≠ sampH1 :=
  ⟨by decide, find_H_eval, by decide⟩

theorem fcmGo_map_relower (nq : Str) :
    ∀ (l : List Sample) (best : Option Sample) (sc : ℚ),
      fcmGo nq (l.map relowerWords) (Option.map relowerWords best) sc
        = Option.map relowerWords (fcmGo nq l best sc) := by
  intro l
  induction l with
  | nil =>
    intro best sc
    simp only [List.map_nil]
    rw [fcmGo_nil, fcmGo_nil]
    by_cases h : 3 / 10 < sc
    · rw [if_pos h, if_pos h]
    · rw [if_neg h, if_neg h]
      rfl
  | cons s rest ih =>
    intro best sc
    simp only [List.map_cons]
    have hw : lowerS (relowerWords s).words = lowerS s.words := lowerS_lowerS s.words
    by_cases h : lowerS s.words = nq
    · rw [fcmGo_cons_exact _ _ _ _ _ (by rw [hw]; exact h), fcmGo_cons_exact _ _ _ _ _ h]
      rfl
    · by_cases h2 : sc < score nq (lowerS s.words)
      · rw [fcmGo_cons_update _ _ _ _ _ (by rw [hw]; exact h) (by rw [hw]; exact h2),
          fcmGo_cons_update _ _ _ _ _ h h2, hw]
        exact ih (some s) _
      · rw [fcmGo_cons_keep _ _ _ _ _ (by rw [hw]; exact h) (by rw [hw]; exact h2),
          fcmGo_cons_keep _ _ _ _ _ h h2]
        exact ih best sc

/-- Claim C6 (amended): the query is lower-cased *and stripped*, while each
candidate text is only lower-cased (never stripped) before comparison.
Consequently pre-normalizing the query does not change the result, and
lower-casing every candidate text changes the result only by returning the
re-lowered record. -/
theorem find_closest_match_normalization (samples : List Sample) (q : Str) :
    find_closest_match samples (stripS (lowerS q)) = find_closest_match samples q ∧
    find_closest_match (samples.map relowerWords) q
      = Option.map relowerWords (find_closest_match samples q) := by
  constructor
  · unfold find_closest_match
    rw [lowerS_stripS, lowerS_lowerS, stripS_stripS]
  · unfold find_closest_match
    have h := fcmGo_map_relower (stripS (lowerS q)) samples none 0
    simpa using h

/-- Claim C6 counterexample: with candidate texts `"hello "` and `"hello"`
and query `"hello"`, the function returns the second record, while the
variant that normalizes candidates exactly like the query (lower-case and
strip) returns the first: candidates are not stripped before comparison. -/
theorem find_closest_match_candidate_not_stripped :
    find_closest_match [sampH1, sampH2] ("hello".toList) = some sampH2 ∧
    find_closest_match_specNorm [sampH1, sampH2] ("hello".toList) = some sampH1 ∧
    sampH1 ≠ sampH2 :=
  ⟨find_H_eval, by decide, by decide⟩

theorem runLen_nil_right (P : Char → Bool) (a : Str) : runLen P a [] = 0 := by
  cases a <;> rfl

theorem runLen_nil_left (P : Char → Bool) (b : Str) : runLen P [] b = 0 := by
  cases b <;> rfl

theorem cands_zero_right (la : Nat) : cands la 0 = [] := by
  simp [cands]

theorem bestBlock_nil_right (P : Char → Bool) (a : Str) : bestBlock P a [] = ⟨0, 0, 0⟩ := by
  unfold bestBlock
  rw [show ([] : Str).length = 0 from rfl, cands_zero_right]
  rfl

theorem bestBlockExt_nil_right (P : Char → Bool) (a : Str) :
    bestBlockExt P a [] = ⟨0, 0, 0⟩ := by
  unfold bestBlockExt extendBlk
  rw [bestBlock_nil_right]
  simp [runLen_nil_right, runLen_nil_left]

theorem mtAux_nil_right (P : Char → Bool) (fuel : Nat) (a : Str) : mtAux P fuel a [] = 0 := by
  cases fuel with
  | zero => rfl
  | succ n =>
    unfold mtAux
    simp [bestBlockExt_nil_right]

theorem pyMatchTotal_nil_right (a : Str) : pyMatchTotal a [] = 0 :=
  mtAux_nil_right _ _ _

theorem tokenSet_nil : tokenSet [] = ∅ := rfl

theorem score_nil_right (nq : Str) (h : nq ≠ []) : score nq [] = 0 := by
  unfold score
  have h1 : simRatioQ nq [] = 0 := by
    unfold simRatioQ
    rw [pyMatchTotal_nil_right]
    rw [if_neg (fun h0 => h (List.length_eq_zero.mp (by simpa using h0)))]
    simp
  have h2 : wordOverlap (tokenSet nq) (tokenSet []) = 0 := by
    unfold wordOverlap
    by_cases hq : tokenSet nq = ∅
    · rw [if_pos hq]
    · rw [if_neg hq, tokenSet_nil]
      simp
  rw [h1, h2]
  ring

theorem fcmGo_ret (nq : Str) (r : Sample) :
    ∀ (l : List Sample) (best : Option Sample) (sc : ℚ),
      (∀ x, best = some x → score nq (lowerS x.words) = sc) →
      fcmGo nq l best sc = some r →
      lowerS r.words = nq ∨ 3 / 10 < score nq (lowerS r.words) := by
  intro l
  induction l with
  | nil =>
    intro best sc hinv h
    rw [fcmGo_nil] at h
    split at h
    · rename_i hgt
      right
      rw [hinv r h]
      exact hgt
    · exact absurd h (by simp)
  | cons s rest ih =>
    intro best sc hinv h
    by_cases he : lowerS s.words = nq
    · rw [fcmGo_cons_exact _ _ _ _ _ he] at h
      injection h with h3
      subst h3
      exact Or.inl he
    · by_cases h2 : sc < score nq (lowerS s.words)
      · rw [fcmGo_cons_update _ _ _ _ _ he h2] at h
        exact ih _ _ (fun x hx => by cases hx; rfl) h
      · rw [fcmGo_cons_keep _ _ _ _ _ he h2] at h
        exact ih _ _ hinv h

/-- Claim C7 (amended): a record with empty text can only be returned when
the normalized query is itself empty (then the exact short-circuit matches
it); for every query whose normalized form is non-empty, an empty-text
record is unmatchable by both the exact short-circuit and the scored pass. -/
theorem find_closest_match_empty_words (samples : List Sample) (q : Str) (r : Sample)
    (h : find_closest_match samples q = some r) (hw : r.words = []) :
    stripS (lowerS q) = [] := by
  by_contra hne
  unfold find_closest_match at h
  have hret := fcmGo_ret (stripS (lowerS q)) r samples none 0 (by intro x hx; cases hx) h
  rcases hret with h1 | h1
  · rw [hw] at h1
    exact hne ((show lowerS ([] : Str) = [] from rfl) ▸ h1).symm
  · rw [hw, show lowerS ([] : Str) = [] from rfl,
      score_nil_right _ hne] at h1
    norm_num at h1

theorem find_closest_match_empty_words_witness :
    find_closest_match [sampE] [' '] = some sampE ∧ sampE.words = [] ∧
      stripS (lowerS [' ']) = [] :=
  ⟨by decide, rfl, find_closest_match_empty_words [sampE] [' '] sampE (by decide) rfl⟩

/-- Claim C7 counterexample: on the corpus containing a single empty-text
record, the empty query is an exact match for it, and `find_closest_match`
returns that empty-text record. -/
theorem find_closest_match_returns_empty_words :
    find_closest_match [sampE] [] = some sampE ∧ sampE.words = [] := by
  exact ⟨by decide, rfl⟩

theorem scoredGo_nil (nq : Str) (best : Option Sample) (sc : ℚ) :
    scoredGo nq [] best sc = (best, sc) := rfl

theorem scoredGo_cons_update (nq : Str) (s : Sample) (rest : List Sample) (best : Option Sample)
    (sc : ℚ) (h2 : sc < score nq (lowerS s.words)) :
    scoredGo nq (s :: rest) best sc = scoredGo nq rest (some s) (score nq (lowerS s.words)) := by
  conv_lhs => unfold scoredGo
  rw [if_pos h2]

theorem scoredGo_cons_keep (nq : Str) (s : Sample) (rest : List Sample) (best : Option Sample)
    (sc : ℚ) (h2 : ¬sc < score nq (lowerS s.words)) :
    scoredGo nq (s :: rest) best sc = scoredGo nq rest best sc := by
  conv_lhs => unfold scoredGo
  rw [if_neg h2]

theorem fcm_eq_threshold (nq : Str) :
    ∀ (l : List Sample) (best : Option Sample) (sc : ℚ),
      (∀ s ∈ l, lowerS s.words ≠ nq) →
      fcmGo nq l best sc
        = (if 3 / 10 < (scoredGo nq l best sc).2 then (scoredGo nq l best sc).1 else none) := by
  intro l
  induction l with
  | nil =>
    intro best sc _
    rw [fcmGo_nil, scoredGo_nil]
  | cons s rest ih =>
    intro best sc h
    have hs : lowerS s.words ≠ nq := h s (List.mem_cons_self s rest)
    have hrest : ∀ x ∈ rest, lowerS x.words ≠ nq := fun x hx => h x (List.mem_cons_of_mem _ hx)
    by_cases h2 : sc < score nq (lowerS s.words)
    · rw [fcmGo_cons_update _ _ _ _ _ hs h2, scoredGo_cons_update _ _ _ _ _ h2, ih _ _ hrest]
    · rw [fcmGo_cons_keep _ _ _ _ _ hs h2, scoredGo_cons_keep _ _ _ _ _ h2, ih _ _ hrest]

theorem scoredGo_snd (nq : Str) :
    ∀ (l : List Sample) (best : Option Sample) (sc : ℚ),
      (scoredGo nq l best sc).2 = l.foldl (fun m s => max m (score nq (lowerS s.words))) sc := by
  intro l
  induction l with
  | nil => intro best sc; rfl
  | cons s rest ih =>
    intro best sc
    simp only [List.foldl_cons]
    by_cases h2 : sc < score nq (lowerS s.words)
    · rw [scoredGo_cons_update _ _ _ _ _ h2, ih, max_eq_right (le_of_lt h2)]
    · rw [scoredGo_cons_keep _ _ _ _ _ h2, ih, max_eq_left (not_lt.mp h2)]

theorem scoredGo_none (nq : Str) :
    ∀ (l : List Sample) (best : Option Sample) (sc : ℚ),
      (scoredGo nq l best sc).1 = none → best = none ∧ (scoredGo nq l best sc).2 = sc := by
  intro l
  induction l with
  | nil => intro best sc h; exact ⟨h, rfl⟩
  | cons s rest ih =>
    intro best sc h
    by_cases h2 : sc < score nq (lowerS s.words)
    · rw [scoredGo_cons_update _ _ _ _ _ h2] at h
      exact absurd (ih _ _ h).1 (by simp)
    · rw [scoredGo_cons_keep _ _ _ _ _ h2] at h ⊢
      exact ih _ _ h

theorem scoredGo_some (nq : Str) :
    ∀ (l : List Sample) (best : Option Sample) (sc : ℚ) (r : Sample),
      (scoredGo nq l best sc).1 = some r →
      (best = some r ∧ (scoredGo nq l best sc).2 = sc ∧
        ∀ t ∈ l, score nq (lowerS t.words) ≤ sc) ∨
      (∃ l1 l2, l = l1 ++ r :: l2 ∧
        (scoredGo nq l best sc).2 = score nq (lowerS r.words) ∧
        sc < score nq (lowerS r.words) ∧
        (∀ t ∈ l1, score nq (lowerS t.words) < score nq (lowerS r.words)) ∧
        (∀ t ∈ l2, score nq (lowerS t.words) ≤ score nq (lowerS r.words))) := by
  intro l
  induction l with
  | nil =>
    intro best sc r h
    rw [scoredGo_nil] at h ⊢
    exact Or.inl ⟨h, rfl, by simp⟩
  | cons s rest ih =>
    intro best sc r h
    by_cases h2 : sc < score nq (lowerS s.words)
    · rw [scoredGo_cons_update _ _ _ _ _ h2] at h ⊢
      rcases ih _ _ r h with ⟨hb, hsnd, hall⟩ | ⟨l1, l2, heq, hsnd, hlt, hl1, hl2⟩
      · injection hb with h3
        subst h3
        right
        exact ⟨[], rest, rfl, hsnd, h2, by simp, hall⟩
      · right
        refine ⟨s :: l1, l2, by rw [heq, List.cons_append], hsnd, lt_trans h2 hlt, ?_, hl2⟩
        intro t ht
        rcases List.mem_cons.mp ht with rfl | ht2
        · exact hlt
        · exact hl1 t ht2
    · rw [scoredGo_cons_keep _ _ _ _ _ h2] at h ⊢
      rcases ih _ _ r h with ⟨hb, hsnd, hall⟩ | ⟨l1, l2, heq, hsnd, hlt, hl1, hl2⟩
      · left
        refine ⟨hb, hsnd, ?_⟩
        intro t ht
        rcases List.mem_cons.mp ht with rfl | ht2
        · exact not_lt.mp h2
        · exact hall t ht2
      · right
        refine ⟨s :: l1, l2, by rw [heq, List.cons_append], hsnd, hlt, ?_, hl2⟩
        intro t ht
        rcases List.mem_cons.mp ht with rfl | ht2
        · exact lt_of_le_of_lt (not_lt.mp h2) hlt
        · exact hl1 t ht2

theorem no_exact_of_strip (samples : List Sample) (q : Str)
    (h : ∀ s ∈ samples, stripS (lowerS s.words) ≠ stripS (lowerS q)) :
    ∀ s ∈ samples, lowerS s.words ≠ stripS (lowerS q) := by
  intro s hs heq
  apply h s hs
  calc stripS (lowerS s.words) = stripS (stripS (lowerS q)) := by rw [heq]
  _ = stripS (lowerS q) := stripS_stripS _

/-- Claim C4: when no record is an exact normalized match for the query,
`find_closest_match` returns the best-scoring record exactly when the best
score is strictly greater than `0.3`, and otherwise returns `none`. -/
theorem find_closest_match_threshold (samples : List Sample) (q : Str)
    (h : ∀ s ∈ samples, stripS (lowerS s.words) ≠ stripS (lowerS q)) :
    (bestScore samples (stripS (lowerS q)) ≤ 3 / 10 ∧ find_closest_match samples q = none) ∨
    (3 / 10 < bestScore samples (stripS (lowerS q)) ∧
      ∃ r, find_closest_match samples q = some r ∧
        scoreOf (stripS (lowerS q)) r = bestScore samples (stripS (lowerS q))) := by
  have hne := no_exact_of_strip samples q h
  have hsnd : (scoredGo (stripS (lowerS q)) samples none 0).2
      = bestScore samples (stripS (lowerS q)) := by
    rw [scoredGo_snd]
    rfl
  have hfcm : find_closest_match samples q
      = (if 3 / 10 < (scoredGo (stripS (lowerS q)) samples none 0).2
          then (scoredGo (stripS (lowerS q)) samples none 0).1 else none) :=
    fcm_eq_threshold _ samples none 0 hne
  by_cases hth : 3 / 10 < bestScore samples (stripS (lowerS q))
  · right
    refine ⟨hth, ?_⟩
    cases hfst : (scoredGo (stripS (lowerS q)) samples none 0).1 with
    | none =>
      exfalso
      have h0 := (scoredGo_none _ samples none 0 hfst).2
      rw [hsnd] at h0
      rw [h0] at hth
      norm_num at hth
    | some r =>
      refine ⟨r, ?_, ?_⟩
      · rw [hfcm, hsnd, if_pos hth, hfst]
      · rcases scoredGo_some _ samples none 0 r hfst with ⟨hb, _, _⟩ | ⟨l1, l2, _, hsnd2, _, _, _⟩
        · exact absurd hb (by simp)
        · exact hsnd2.symm.trans hsnd
  · left
    refine ⟨not_lt.mp hth, ?_⟩
    rw [hfcm, hsnd, if_neg hth]

theorem find_closest_match_threshold_witness :
    (∀ s ∈ [samp4], stripS (lowerS s.words) ≠ stripS (lowerS ("good day".toList))) ∧
    ((bestScore [samp4] (stripS (lowerS ("good day".toList))) ≤ 3 / 10 ∧
        find_closest_match [samp4] ("good day".toList) = none) ∨
      (3 / 10 < bestScore [samp4] (stripS (lowerS ("good day".toList))) ∧
        ∃ r, find_closest_match [samp4] ("good day".toList) = some r ∧
          scoreOf (stripS (lowerS ("good day".toList))) r
            = bestScore [samp4] (stripS (lowerS ("good day".toList))))) :=
  ⟨by decide, find_closest_match_threshold [samp4] ("good day".toList) (by decide)⟩

/-- Claim C5: in the scored pass (no exact normalized match), the returned
record is the first record attaining the maximal score: every record
strictly before it in corpus order scores strictly less, and every record
after it scores at most as much (the best-so-far is replaced only on a
strictly greater score). -/
theorem find_closest_match_tie_first (samples : List Sample) (q : Str) (r : Sample)
    (h : ∀ s ∈ samples, stripS (lowerS s.words) ≠ stripS (lowerS q))
    (h2 : find_closest_match samples q = some r) :
    ∃ l1 l2, samples = l1 ++ r :: l2 ∧
      (∀ t ∈ l1, scoreOf (stripS (lowerS q)) t < scoreOf (stripS (lowerS q)) r) ∧
      (∀ t ∈ l2, scoreOf (stripS (lowerS q)) t ≤ scoreOf (stripS (lowerS q)) r) := by
  have hne := no_exact_of_strip samples q h
  have hfcm := fcm_eq_threshold (stripS (lowerS q)) samples none 0 hne
  rw [show find_closest_match samples q = fcmGo (stripS (lowerS q)) samples none 0 from rfl,
    hfcm] at h2
  split at h2
  · rcases scoredGo_some _ samples none 0 r h2 with ⟨hb, _, _⟩ | ⟨l1, l2, heq, _, _, hl1, hl2⟩
    · exact absurd hb (by simp)
    · exact ⟨l1, l2, heq, hl1, hl2⟩
  · exact absurd h2 (by simp)

theorem find_T_eval : find_closest_match [sampT1, sampT2] ("tie".toList) = some sampT1 := by
  have hnq : stripS (lowerS ("tie".toList)) = "tie".toList := by decide
  unfold find_closest_match
  rw [hnq]
  have hlow : lowerS sampT1.words = "tie x".toList := by decide
  have hlow2 : lowerS sampT2.words = "tie x".toList := by decide
  have hne1 : lowerS sampT1.words ≠ "tie".toList := by decide
  have hne2 : lowerS sampT2.words ≠ "tie".toList := by decide
  have hs : score ("tie".toList) ("tie x".toList) = 21 / 20 := by
    rw [score_eval _ _ 3 1 1 3 5 (by decide) (by decide) (by decide) (by decide) (by decide)
      (by decide)]
    norm_num
  rw [fcmGo_cons_update _ _ _ _ _ hne1 (by rw [hlow, hs]; norm_num), hlow]
  rw [fcmGo_cons_keep _ _ _ _ _ hne2 (by rw [hlow2, hs]; norm_num)]
  rw [fcmGo_nil, if_pos (by rw [hs]; norm_num)]

theorem find_closest_match_tie_first_witness :
    (∀ s ∈ [sampT1, sampT2], stripS (lowerS s.words) ≠ stripS (lowerS ("tie".toList))) ∧
    find_closest_match [sampT1, sampT2] ("tie".toList) = some sampT1 ∧
    (∃ l1 l2, [sampT1, sampT2] = l1 ++ sampT1 :: l2 ∧
      (∀ t ∈ l1, scoreOf (stripS (lowerS ("tie".toList))) t
        < scoreOf (stripS (lowerS ("tie".toList))) sampT1) ∧
      (∀ t ∈ l2, scoreOf (stripS (lowerS ("tie".toList))) t
        ≤ scoreOf (stripS (lowerS ("tie".toList))) sampT1)) :=
  ⟨by decide, find_T_eval,
    find_closest_match_tie_first [sampT1, sampT2] ("tie".toList) sampT1 (by decide) find_T_eval⟩

theorem runLen_cons_pos (P : Char → Bool) (x y : Char) (xs ys : Str) (h1 : x = y)
    (h2 : P y = false) : runLen P (x :: xs) (y :: ys) = runLen P xs ys + 1 := by
  conv_lhs => unfold runLen
  rw [if_pos (by simp [h1, h2])]

theorem runLen_cons_neg (P : Char → Bool) (x y : Char) (xs ys : Str)
    (h : ¬(x = y ∧ P y = false)) : runLen P (x :: xs) (y :: ys) = 0 := by
  conv_lhs => unfold runLen
  rw [if_neg]
  intro hc
  simp only [Bool.and_eq_true, beq_iff_eq, Bool.not_eq_true'] at hc
  exact h hc

theorem runLen_pos_head (P : Char → Bool) (x y : Char) (xs ys : Str)
    (h : runLen P (x :: xs) (y :: ys) ≠ 0) : x = y ∧ P y = false := by
  by_contra hc
  exact h (runLen_cons_neg _ _ _ _ _ hc)

theorem runLen_drop_self (P : Char → Bool) :
    ∀ (xs ys : Str), runLen P (xs.drop (runLen P xs ys)) (ys.drop (runLen P xs ys)) = 0 := by
  intro xs
  induction xs with
  | nil => intro ys; simp [runLen_nil_left]
  | cons x xs ih =>
    intro ys
    cases ys with
    | nil => simp [runLen_nil_right]
    | cons y ys2 =>
      by_cases h : x = y ∧ P y = false
      · rw [runLen_cons_pos P x y xs ys2 h.1 h.2]
        simp only [List.drop_succ_cons]
        exact ih ys2
      · rw [runLen_cons_neg P x y xs ys2 h]
        simp only [List.drop_zero]
        exact runLen_cons_neg P x y xs ys2 h

theorem bbStep_k_le (P : Char → Bool) (a b : Str) (st : Blk) (p : Nat × Nat) :
    st.k ≤ (bbStep P a b st p).k := by
  unfold bbStep
  split
  · rename_i hlt
    exact le_of_lt hlt
  · exact le_refl _

theorem bbFold_mono (P : Char → Bool) (a b : Str) :
    ∀ (L : List (Nat × Nat)) (init : Blk), init.k ≤ (L.foldl (bbStep P a b) init).k := by
  intro L
  induction L with
  | nil => intro init; exact le_refl _
  | cons p tail ih =>
    intro init
    simp only [List.foldl_cons]
    exact le_trans (bbStep_k_le P a b init p) (ih _)

theorem bbFold_ge (P : Char → Bool) (a b : Str) :
    ∀ (L : List (Nat × Nat)) (init : Blk) (p : Nat × Nat), p ∈ L →
      runLen P (a.drop p.1) (b.drop p.2) ≤ (L.foldl (bbStep P a b) init).k := by
  intro L
  induction L with
  | nil => intro init p hp; cases hp
  | cons q tail ih =>
    intro init p hp
    simp only [List.foldl_cons]
    rcases List.mem_cons.mp hp with rfl | hp2
    · refine le_trans ?_ (bbFold_mono P a b tail _)
      unfold bbStep
      split
      · exact le_refl _
      · rename_i hnlt
        exact not_lt.mp hnlt
    · exact ih _ p hp2

theorem bbFold_inv (P : Char → Bool) (a b : Str) :
    ∀ (L : List (Nat × Nat)) (init : Blk),
      (∀ q ∈ L, q.1 < a.length ∧ q.2 < b.length) →
      (init = ⟨0, 0, 0⟩ ∨ (init.i < a.length ∧ init.j < b.length ∧ 0 < init.k ∧
        init.k = runLen P (a.drop init.i) (b.drop init.j))) →
      (L.foldl (bbStep P a b) init = ⟨0, 0, 0⟩ ∨
        ((L.foldl (bbStep P a b) init).i < a.length ∧
          (L.foldl (bbStep P a b) init).j < b.length ∧
          0 < (L.foldl (bbStep P a b) init).k ∧
          (L.foldl (bbStep P a b) init).k
            = runLen P (a.drop (L.foldl (bbStep P a b) init).i)
                (b.drop (L.foldl (bbStep P a b) init).j))) := by
  intro L
  induction L with
  | nil => intro init _ hinit; exact hinit
  | cons q tail ih =>
    intro init hq hinit
    simp only [List.foldl_cons]
    apply ih _ (fun p hp => hq p (List.mem_cons_of_mem _ hp))
    unfold bbStep
    split
    · rename_i hlt
      right
      have hb := hq q (List.mem_cons_self q tail)
      exact ⟨hb.1, hb.2, Nat.lt_of_le_of_lt (Nat.zero_le _) hlt, rfl⟩
    · exact hinit

theorem bestBlock_max (P : Char → Bool) (a b : Str) (i j : Nat) :
    runLen P (a.drop i) (b.drop j) ≤ (bestBlock P a b).k := by
  unfold bestBlock
  by_cases hi : i < a.length
  · by_cases hj : j < b.length
    · refine bbFold_ge P a b _ ⟨0, 0, 0⟩ (i, j) ?_
      simp only [cands, List.mem_flatMap, List.mem_map, List.mem_range]
      exact ⟨i, hi, j, hj, rfl⟩
    · rw [List.drop_eq_nil_of_le (not_lt.mp hj), runLen_nil_right]
      exact Nat.zero_le _
  · rw [List.drop_eq_nil_of_le (not_lt.mp hi), runLen_nil_left]
    exact Nat.zero_le _

theorem bestBlock_cases (P : Char → Bool) (a b : Str) :
    bestBlock P a b = ⟨0, 0, 0⟩ ∨
    ((bestBlock P a b).i < a.length ∧ (bestBlock P a b).j < b.length ∧
      0 < (bestBlock P a b).k ∧
      (bestBlock P a b).k
        = runLen P (a.drop (bestBlock P a b).i) (b.drop (bestBlock P a b).j)) := by
  unfold bestBlock
  apply bbFold_inv
  · intro q hq
    simp only [cands, List.mem_flatMap, List.mem_map, List.mem_range] at hq
    obtain ⟨i, hi, j, hj, rfl⟩ := hq
    exact ⟨hi, hj⟩
  · exact Or.inl rfl

theorem bestBlock_self (P : Char → Bool) (a b : Str) :
    (bestBlock P a b).k
      = runLen P (a.drop (bestBlock P a b).i) (b.drop (bestBlock P a b).j) := by
  rcases bestBlock_cases P a b with h | h
  · have hm := bestBlock_max P a b 0 0
    rw [h] at hm ⊢
    exact (Nat.le_zero.mp hm).symm
  · exact h.2.2.2

theorem bestBlockExt_pFalse (a b : Str) : bestBlockExt pFalse a b = bestBlock pFalse a b := by
  have hself := bestBlock_self pFalse a b
  unfold bestBlockExt extendBlk
  have hfwd : runLen pFalse (a.drop ((bestBlock pFalse a b).i + (bestBlock pFalse a b).k))
      (b.drop ((bestBlock pFalse a b).j + (bestBlock pFalse a b).k)) = 0 := by
    have h0 := runLen_drop_self pFalse (a.drop (bestBlock pFalse a b).i)
      (b.drop (bestBlock pFalse a b).j)
    rw [← hself, List.drop_drop, List.drop_drop] at h0
    exact h0
  have hback : runLen pFalse ((a.take (bestBlock pFalse a b).i).reverse)
      ((b.take (bestBlock pFalse a b).j).reverse) = 0 := by
    rcases bestBlock_cases pFalse a b with h | ⟨hia, hjb, hk, _⟩
    · rw [h]
      simp [runLen_nil_left]
    · by_cases hi0 : (bestBlock pFalse a b).i = 0
      · rw [hi0]
        simp [runLen_nil_left]
      · by_cases hj0 : (bestBlock pFalse a b).j = 0
        · rw [hj0]
          simp [runLen_nil_right]
        · by_contra hne
          have hia2 : (bestBlock pFalse a b).i - 1 < a.length := by omega
          have hjb2 : (bestBlock pFalse a b).j - 1 < b.length := by omega
          have hta : (a.take (bestBlock pFalse a b).i).reverse
              = a[(bestBlock pFalse a b).i - 1] :: (a.take ((bestBlock pFalse a b).i - 1)).reverse := by
            conv_lhs => rw [show (bestBlock pFalse a b).i = ((bestBlock pFalse a b).i - 1) + 1
              from by omega]
            rw [List.take_succ, List.getElem?_eq_getElem hia2]
            simp
          have htb : (b.take (bestBlock pFalse a b).j).reverse
              = b[(bestBlock pFalse a b).j - 1] :: (b.take ((bestBlock pFalse a b).j - 1)).reverse := by
            conv_lhs => rw [show (bestBlock pFalse a b).j = ((bestBlock pFalse a b).j - 1) + 1
              from by omega]
            rw [List.take_succ, List.getElem?_eq_getElem hjb2]
            simp
          rw [hta, htb] at hne
          have hhead := runLen_pos_head _ _ _ _ _ hne
          have hda : a.drop ((bestBlock pFalse a b).i - 1)
              = a[(bestBlock pFalse a b).i - 1] :: a.drop (bestBlock pFalse a b).i := by
            have hd := List.drop_eq_getElem_cons hia2
            rw [show (bestBlock pFalse a b).i - 1 + 1 = (bestBlock pFalse a b).i from by omega] at hd
            exact hd
          have hdb : b.drop ((bestBlock pFalse a b).j - 1)
              = b[(bestBlock pFalse a b).j - 1] :: b.drop (bestBlock pFalse a b).j := by
            have hd := List.drop_eq_getElem_cons hjb2
            rw [show (bestBlock pFalse a b).j - 1 + 1 = (bestBlock pFalse a b).j from by omega] at hd
            exact hd
          have hcontra : runLen pFalse (a.drop ((bestBlock pFalse a b).i - 1))
              (b.drop ((bestBlock pFalse a b).j - 1)) = (bestBlock pFalse a b).k + 1 := by
            rw [hda, hdb, runLen_cons_pos _ _ _ _ _ hhead.1 rfl, ← hself]
          have hle := bestBlock_max pFalse a b ((bestBlock pFalse a b).i - 1)
            ((bestBlock pFalse a b).j - 1)
          rw [hcontra] at hle
          omega
  rw [hback, hfwd]
  simp only [Nat.sub_zero, Nat.zero_add, Nat.add_zero]

theorem mtAux_pFalse (fuel : Nat) : ∀ (a b : Str), mtAux pFalse fuel a b = roAux fuel a b := by
  induction fuel with
  | zero => intro a b; rfl
  | succ n ih =>
    intro a b
    unfold mtAux roAux
    rw [bestBlockExt_pFalse]
    simp only [ih]

theorem isPopular_short (b : Str) (h : b.length < 200) : isPopular b = pFalse := by
  funext c
  unfold isPopular pFalse
  rw [decide_eq_false (by omega : ¬200 ≤ b.length)]
  rfl

/-- Claim C2 (amended): for every normalized query and every candidate whose
lower-cased text has fewer than 200 characters, the character-similarity
component computed in `find_closest_match` equals the pure
Ratcliff-Obershelp value `2 M / T`, where `M` is found by recursively
taking the longest common contiguous block and recursing on the unmatched
left and right remainders.  (For candidates of 200 characters or more,
`SequenceMatcher`'s default autojunk heuristic departs from that value.) -/
theorem simRatioQ_eq_ro (a b : Str) (h : b.length < 200) : simRatioQ a b = roRatioQ a b := by
  unfold simRatioQ roRatioQ pyMatchTotal roMatchTotal
  rw [isPopular_short b h, mtAux_pFalse]

theorem simRatioQ_eq_ro_witness :
    ("ab".toList : Str).length < 200 ∧
      simRatioQ ("xab".toList) ("ab".toList) = roRatioQ ("xab".toList) ("ab".toList) :=
  ⟨by decide, simRatioQ_eq_ro ("xab".toList) ("ab".toList) (by decide)⟩

/-- Claim C2 counterexample: for the normalized query `"b"` and a
200-character candidate text (196 `d` followed by four `b`), the ratio
computed by the code is `0` — with the candidate at the autojunk threshold,
its popular characters `d` and `b` are excluded from matching — while the
pure recursive longest-common-block value `2 M / T` is `2 / 201`, the block
`"b"` matching. -/
theorem simRatioQ_autojunk_cex :
    cexS.length = 200 ∧ pyMatchTotal cexQ cexS = 0 ∧ roMatchTotal cexQ cexS = 1 ∧
      simRatioQ cexQ cexS = 0 ∧ roRatioQ cexQ cexS = 2 / 201 ∧
      simRatioQ cexQ cexS ≠ roRatioQ cexQ cexS := by
  have h1 : cexS.length = 200 := by decide
  have h2 : pyMatchTotal cexQ cexS = 0 := by decide
  have h3 : roMatchTotal cexQ cexS = 1 := by decide
  have h4 : simRatioQ cexQ cexS = 0 := by
    unfold simRatioQ
    rw [h2, if_neg (by decide)]
    simp
  have h5 : roRatioQ cexQ cexS = 2 / 201 := by
    unfold roRatioQ
    rw [h3, if_neg (by decide), show cexQ.length = 1 from by decide, h1]
    norm_num
  exact ⟨h1, h2, h3, h4, h5, by rw [h4, h5]; norm_num⟩
